import Mathlib

/-!
Shallow embedding of the drop-task backend server (src/server.js), together
with the ordering comparator of the earlier server revision
(src/unnamed/part_000), and proofs of the frozen claims about them.

Modelling conventions:
* JavaScript numbers occurring as item ids are modelled as exact rationals.
  Every id value relevant to the claims is a finite decimal, and the only
  operations performed on ids are comparisons and equality tests, which agree
  with the rational semantics.  The `typeof id === "number"` guard of the
  update-order handler is captured by the type of the embedded order.
* `parseInt` results are modelled as `Option ℤ`, with `none` standing for NaN.
  NaN propagates through the arithmetic on page and limit and coerces to 0
  inside `Array.prototype.slice`, exactly as in JavaScript.
* The JavaScript `Map` backing the search cache is modelled as an association
  list; JavaScript `Set` objects are modelled as duplicate-free lists kept in
  insertion order.
* `Array.prototype.sort` with a comparator is, per the ECMAScript standard, a
  stable sort ordered by the comparator; it is modelled by the stable
  insertion sort of Mathlib applied to the lifted comparator.
-/

set_option maxHeartbeats 1000000

namespace Catalog

/-! ### JavaScript string and number primitives -/

/-- Does the character list `pat` occur at the very front of `s`? -/
def charsStart : List Char → List Char → Bool
  | [], _ => true
  | _ :: _, [] => false
  | c :: cs, d :: ds => c = d && charsStart cs ds

/-- Does the character list `pat` occur anywhere inside the second list? -/
def charsContain (pat : List Char) : List Char → Bool
  | [] => charsStart pat []
  | d :: ds => charsStart pat (d :: ds) || charsContain pat ds

/-- JavaScript `s.includes(pat)`: substring containment. -/
def strContains (s pat : String) : Bool :=
  charsContain pat.data s.data

/-- The lowercase-then-trim normalization `search.toLowerCase().trim()`
applied to a search term in the items handler, written out over the character
list so that it evaluates by kernel reduction. -/
def normalizeTerm (s : String) : String :=
  ⟨(((s.data.map Char.toLower).dropWhile Char.isWhitespace).reverse.dropWhile
      Char.isWhitespace).reverse⟩

/-- Accumulate the decimal value of the leading digit run. -/
def digitsVal : List Char → ℕ → ℕ
  | [], acc => acc
  | c :: cs, acc => if c.isDigit then digitsVal cs (acc * 10 + (c.toNat - 48)) else acc

/-- Is the first character a decimal digit? -/
def startsWithDigit : List Char → Bool
  | [] => false
  | c :: _ => c.isDigit

/-- JavaScript `parseInt` on base-10 input: skip leading whitespace, read an
optional sign and then the longest digit run; `none` models a NaN result
(no digits).  Hexadecimal auto-detection is out of scope: no claim involves
a `0x`-prefixed numeral. -/
def jsParseInt (s : String) : Option ℤ :=
  match s.data.dropWhile Char.isWhitespace with
  | '-' :: rest => if startsWithDigit rest then some (-(digitsVal rest 0 : ℤ)) else none
  | '+' :: rest => if startsWithDigit rest then some ((digitsVal rest 0 : ℤ)) else none
  | rest => if startsWithDigit rest then some ((digitsVal rest 0 : ℤ)) else none

/-- `Math.max(1, parseInt(page))`, NaN propagating. -/
def pageNumOf (page : String) : Option ℤ :=
  (jsParseInt page).map (fun n => max 1 n)

/-- `Math.max(1, Math.min(100, parseInt(limit)))`, NaN propagating. -/
def limitNumOf (limit : String) : Option ℤ :=
  (jsParseInt limit).map (fun n => max 1 (min 100 n))

/-- `startIndex = (pageNum - 1) * limitNum`, NaN propagating. -/
def startIndexOf : Option ℤ → Option ℤ → Option ℤ
  | some p, some l => some ((p - 1) * l)
  | _, _ => none

/-- `endIndex = startIndex + limitNum`, NaN propagating. -/
def endIndexOf : Option ℤ → Option ℤ → Option ℤ
  | some p, some l => some ((p - 1) * l + l)
  | _, _ => none

/-- Resolution of one `Array.prototype.slice` argument against a length:
NaN coerces to 0, negative values count from the end (clamped at 0), and
values beyond the length clamp to the length. -/
def jsSliceIndex (len : ℕ) : Option ℤ → ℕ
  | none => 0
  | some k => if k < 0 then ((len : ℤ) + k).toNat else min k.toNat len

/-- JavaScript `l.slice(a, b)`. -/
def jsSlice (l : List ℚ) (a b : Option ℤ) : List ℚ :=
  (l.drop (jsSliceIndex l.length a)).take (jsSliceIndex l.length b - jsSliceIndex l.length a)

/-- `endIndex < total` as computed for the `hasMore` field; a NaN end index
compares false. -/
def jsHasMore : Option ℤ → ℕ → Bool
  | none, _ => false
  | some e, total => decide (e < (total : ℤ))

/-! ### Catalog state -/

/-- A cached search result `{ ids, total }`. -/
structure SearchEntry where
  ids : List ℚ
  total : ℕ

/-- The process-wide mutable state: custom order (null means natural order),
set of selected ids, and memoized search results keyed by normalized term. -/
structure CatalogState where
  customOrder : Option (List ℚ)
  selectedItems : List ℚ
  searchCache : List (String × SearchEntry)

/-- The state at server startup. -/
def initialState : CatalogState :=
  ⟨none, [], []⟩

/-- `Map.prototype.get` (with `has` folded in): the value stored under `k`. -/
def cacheGet : List (String × SearchEntry) → String → Option SearchEntry
  | [], _ => none
  | (k', v) :: rest, k => if k' = k then some v else cacheGet rest k

/-- `Map.prototype.set`: replace the entry under `k`, or append a new one. -/
def cacheSet : List (String × SearchEntry) → String → SearchEntry → List (String × SearchEntry)
  | [], k, v => [(k, v)]
  | (k', v') :: rest, k, v =>
      if k' = k then (k, v) :: rest else (k', v') :: cacheSet rest k v

/-! ### Item synthesis -/

/-- An item as returned by the API. -/
structure Item where
  id : ℚ
  text : String
  selected : Bool

/-- `generateItem`: synthesize the item for an id on demand, reading the
selected flag live from the selection set. -/
def generateItem (s : CatalogState) (id : ℚ) : Item :=
  ⟨id, "Item " ++ toString id, decide (id ∈ s.selectedItems)⟩

/-! ### Order resolver (`applyCustomOrder`) -/

/-- First pass of `applyCustomOrder`: walk the custom order, emitting each id
found in the remaining set and deleting it from that set. -/
def orderPass : List ℚ → Finset ℚ → List ℚ × Finset ℚ
  | [], rem => ([], rem)
  | id :: rest, rem =>
      if id ∈ rem then
        let p := orderPass rest (rem.erase id)
        (id :: p.1, p.2)
      else orderPass rest rem

/-- `applyCustomOrder(ids)` of src/server.js, with the `state.customOrder`
read made explicit: ids named by the custom order first (in its order), then
the remaining ids in their original relative order. -/
def applyCustomOrder (customOrder : Option (List ℚ)) (ids : List ℚ) : List ℚ :=
  match customOrder with
  | none => ids
  | some ord =>
      let p := orderPass ord ids.toFinset
      p.1 ++ ids.filter (fun id => decide (id ∈ p.2))

/-! ### Search scan -/

/-- Does the decimal numeral of `id` contain the term as a substring? -/
def matchesTerm (id : ℕ) (term : String) : Bool :=
  strContains (Nat.repr id) term

/-- The search loop of the items handler: scan ids upward, push matches, and
break as soon as 1000 matches are collected.  The fuel argument counts the
remaining loop iterations (`id <= 1000000`). -/
def searchLoop (term : String) : ℕ → ℕ → List ℕ → List ℕ
  | 0, _, acc => acc
  | fuel + 1, id, acc =>
      let next := if matchesTerm id term then acc ++ [id] else acc
      if 1000 ≤ next.length then next else searchLoop term fuel (id + 1) next

/-- The complete search scan for a term: ids 1 through 1000000. -/
def searchCompute (term : String) : List ℕ :=
  searchLoop term 1000000 1 []

/-- Specification-side description of the matching ids: all ids of the
universe whose decimal numeral contains the term, in ascending order.
Used only to characterize `searchCompute`. -/
def specMatchList (term : String) : List ℕ :=
  (List.range' 1 1000000).filter (fun id => matchesTerm id term)

/-! ### The items handler -/

/-- The natural ascending universe of ids, `[1 .. 1000000]`. -/
def naturalIds : List ℚ :=
  List.map (fun n : ℕ => (n : ℚ)) (List.range' 1 1000000)

/-- Choice of the effective id sequence and total in the items handler:
search branch (with cache lookup and fill), custom-order branch, or the
natural universe.  Returns the sequence, the total, and the updated state. -/
def effectiveSeq (s : CatalogState) (searchTerm : String) : List ℚ × ℕ × CatalogState :=
  if searchTerm ≠ "" then
    match cacheGet s.searchCache searchTerm with
    | some e => (e.ids, e.total, s)
    | none =>
        let matchIds := (searchCompute searchTerm).map (fun n : ℕ => (n : ℚ))
        (matchIds, matchIds.length,
          { s with searchCache := cacheSet s.searchCache searchTerm ⟨matchIds, matchIds.length⟩ })
  else
    match s.customOrder with
    | some ord => if 0 < ord.length then (ord, ord.length, s) else (naturalIds, 1000000, s)
    | none => (naturalIds, 1000000, s)

/-- The response of `GET /api/items`. -/
structure ListResponse where
  items : List Item
  total : ℕ
  hasMore : Bool
  page : Option ℤ
  limit : ℕ

/-- The `GET /api/items` handler: clamp page and limit, resolve the effective
id sequence, slice it, and synthesize the items.  Note that the `limit` field
of the response is the number of items actually returned. -/
def listItems (s : CatalogState) (page limit search : String) : ListResponse × CatalogState :=
  let pageNum := pageNumOf page
  let limitNum := limitNumOf limit
  let startIndex := startIndexOf pageNum limitNum
  let endIndex := endIndexOf pageNum limitNum
  let eff := effectiveSeq s (normalizeTerm search)
  let items := (jsSlice eff.1 startIndex endIndex).map (generateItem s)
  (⟨items, eff.2.1, jsHasMore endIndex eff.2.1, pageNum, items.length⟩, eff.2.2)

/-! ### The update-order handler -/

/-- Is an id within the catalog range `[1, 1000000]`? -/
def idInRange (id : ℚ) : Prop :=
  1 ≤ id ∧ id ≤ 1000000

instance idInRangeDec (id : ℚ) : Decidable (idInRange id) :=
  inferInstanceAs (Decidable (_ ∧ _))

/-- The validation scan of `POST /api/update-order`: reject the first element
that is out of range or already seen, naming it in the error. -/
def validateOrder : List ℚ → List ℚ → Option String
  | [], _ => none
  | id :: rest, seen =>
      if id < 1 ∨ 1000000 < id then some ("Invalid ID: " ++ toString id)
      else if id ∈ seen then some ("Duplicate ID: " ++ toString id)
      else validateOrder rest (id :: seen)

/-- Outcome of `POST /api/update-order`. -/
inductive UpdateResult where
  | ok (message : String)
  | badRequest (error : String)

/-- Did the update succeed? -/
def UpdateResult.isOk : UpdateResult → Bool
  | .ok _ => true
  | .badRequest _ => false

/-- The `POST /api/update-order` handler: validate, then replace the custom
order and clear the search cache; on rejection the state is untouched. -/
def updateOrder (s : CatalogState) (order : List ℚ) : UpdateResult × CatalogState :=
  match validateOrder order [] with
  | some e => (.badRequest e, s)
  | none =>
      (.ok ("Order updated with " ++ toString order.length ++ " items"),
        { s with customOrder := some order, searchCache := [] })

/-! ### The state handler -/

/-- The response of `GET /api/state`. -/
structure StateResponse where
  selected : List ℚ
  selectedCount : ℕ
  hasCustomOrder : Bool

/-- The `GET /api/state` handler. -/
def getState (s : CatalogState) : StateResponse :=
  ⟨s.selectedItems, s.selectedItems.length, s.customOrder.isSome⟩

/-! ### The comparator sort of the earlier server revision -/

/-- JavaScript `Array.prototype.indexOf`: first index of `a`, or `-1`. -/
def jsIndexOf : List ℚ → ℚ → ℤ
  | [], _ => -1
  | b :: bs, a =>
      if b = a then 0
      else if jsIndexOf bs a = -1 then -1 else jsIndexOf bs a + 1

/-- The sort comparator of the earlier items handler: ids are compared by
their position in the custom order, ids absent from it sorting last and
comparing equal among themselves. -/
def oldCompare (ord : List ℚ) (a b : ℚ) : ℤ :=
  if jsIndexOf ord a = -1 ∧ jsIndexOf ord b = -1 then 0
  else if jsIndexOf ord a = -1 then 1
  else if jsIndexOf ord b = -1 then -1
  else jsIndexOf ord a - jsIndexOf ord b

/-- The weak order induced by the comparator: `a` may be placed before `b`. -/
def oldSortLe (ord : List ℚ) (a b : ℚ) : Prop :=
  oldCompare ord a b ≤ 0

instance oldSortLeDec (ord : List ℚ) : DecidableRel (oldSortLe ord) :=
  fun _ _ => inferInstanceAs (Decidable (_ ≤ _))

/-- The earlier revision sorts the candidate list with the comparator through
`Array.prototype.sort`, a stable sort; modelled by stable insertion sort. -/
def oldSort (ord : List ℚ) (ids : List ℚ) : List ℚ :=
  List.insertionSort (oldSortLe ord) ids

/-- Cache well-formedness: every stored entry holds the computed scan for its
key.  Every reachable state satisfies this, because entries are only ever
created by the items handler from the scan itself and `setOrder` clears the
whole cache. -/
def CacheWF (s : CatalogState) : Prop :=
  ∀ k e, cacheGet s.searchCache k = some e →
    e.ids = (searchCompute k).map (fun n : ℕ => (n : ℚ))

/-! ### Basic facts about the handler pieces -/

theorem naturalIds_length : naturalIds.length = 1000000 := by
  unfold naturalIds
  rw [List.length_map, List.length_range']

theorem startIndexOf_none_left (x : Option ℤ) : startIndexOf none x = none := by
  cases x <;> rfl

theorem startIndexOf_none_right (x : Option ℤ) : startIndexOf x none = none := by
  cases x <;> rfl

theorem endIndexOf_none_left (x : Option ℤ) : endIndexOf none x = none := by
  cases x <;> rfl

theorem endIndexOf_none_right (x : Option ℤ) : endIndexOf x none = none := by
  cases x <;> rfl

theorem jsSlice_none_none (l : List ℚ) : jsSlice l none none = [] := by
  simp [jsSlice, jsSliceIndex]

/-- In the handler, an empty normalized term selects the order/natural branch;
with no custom order the natural universe is served. -/
theorem effectiveSeq_natural (s : CatalogState) (h : s.customOrder = none) :
    effectiveSeq s "" = (naturalIds, 1000000, s) := by
  unfold effectiveSeq
  rw [if_neg (by simp), h]

/-- With an empty custom order the natural universe is served as well. -/
theorem effectiveSeq_empty_order (s : CatalogState) (h : s.customOrder = some []) :
    effectiveSeq s "" = (naturalIds, 1000000, s) := by
  unfold effectiveSeq
  rw [if_neg (by simp), h]
  rfl

/-- With a nonempty custom order and no search, the custom order itself is the
effective sequence and its length the total. -/
theorem effectiveSeq_custom (s : CatalogState) (ord : List ℚ) (h : s.customOrder = some ord)
    (hne : ord ≠ []) : effectiveSeq s "" = (ord, ord.length, s) := by
  unfold effectiveSeq
  rw [if_neg (by simp), h]
  show (if 0 < ord.length then (ord, ord.length, s) else (naturalIds, 1000000, s)) = _
  rw [if_pos (List.length_pos.mpr hne)]

/-! ### Validation lemmas for the update-order handler -/

theorem validateOrder_none_iff :
    ∀ (order seen : List ℚ),
      validateOrder order seen = none ↔
        ((∀ id ∈ order, idInRange id) ∧ order.Nodup ∧ ∀ id ∈ order, id ∉ seen) := by
  intro order
  induction order with
  | nil => intro seen; simp [validateOrder]
  | cons a rest ih =>
      intro seen
      simp only [validateOrder]
      by_cases h1 : a < 1 ∨ 1000000 < a
      · rw [if_pos h1]
        constructor
        · intro h; simp at h
        · rintro ⟨hr, -, -⟩
          have h2 := hr a (List.mem_cons_self a rest)
          rcases h1 with h1 | h1
          · exact absurd h2.1 (not_le.mpr h1)
          · exact absurd h2.2 (not_le.mpr h1)
      · rw [if_neg h1]
        by_cases h2 : a ∈ seen
        · rw [if_pos h2]
          constructor
          · intro h; simp at h
          · rintro ⟨-, -, hns⟩
            exact absurd h2 (hns a (List.mem_cons_self a rest))
        · rw [if_neg h2, ih (a :: seen)]
          have hr : idInRange a := by
            constructor
            · exact not_lt.mp (fun hc => h1 (Or.inl hc))
            · exact not_lt.mp (fun hc => h1 (Or.inr hc))
          constructor
          · rintro ⟨hall, hnd, hnotin⟩
            refine ⟨?_, ?_, ?_⟩
            · intro id hid
              rcases List.mem_cons.mp hid with rfl | hid
              · exact hr
              · exact hall id hid
            · refine List.nodup_cons.mpr ⟨fun ha => ?_, hnd⟩
              exact hnotin a ha (List.mem_cons_self a seen)
            · intro id hid hmem
              rcases List.mem_cons.mp hid with rfl | hid
              · exact h2 hmem
              · exact hnotin id hid (List.mem_cons_of_mem a hmem)
          · rintro ⟨hall, hnd, hnotin⟩
            obtain ⟨hna, hnd2⟩ := List.nodup_cons.mp hnd
            refine ⟨fun id hid => hall id (List.mem_cons_of_mem a hid), hnd2, ?_⟩
            intro id hid hmem
            rcases List.mem_cons.mp hmem with rfl | hmem
            · exact hna hid
            · exact hnotin id (List.mem_cons_of_mem a hid) hmem

theorem validateOrder_invalid :
    ∀ (pre seen : List ℚ) (id : ℚ) (post : List ℚ),
      (∀ x ∈ pre, idInRange x) → pre.Nodup → (∀ x ∈ pre, x ∉ seen) → ¬ idInRange id →
      validateOrder (pre ++ id :: post) seen = some ("Invalid ID: " ++ toString id) := by
  intro pre
  induction pre with
  | nil =>
      intro seen id post _ _ _ hbad
      have hcond : id < 1 ∨ 1000000 < id := by
        rcases not_and_or.mp hbad with h | h
        · exact Or.inl (not_le.mp h)
        · exact Or.inr (not_le.mp h)
      simp only [List.nil_append, validateOrder]
      rw [if_pos hcond]
  | cons a pre2 ih =>
      intro seen id post hall hnd hdis hbad
      have hra := hall a (List.mem_cons_self a pre2)
      have h1 : ¬(a < 1 ∨ 1000000 < a) := by
        rintro (h | h)
        · exact absurd hra.1 (not_le.mpr h)
        · exact absurd hra.2 (not_le.mpr h)
      obtain ⟨hna, hnd2⟩ := List.nodup_cons.mp hnd
      simp only [List.cons_append, validateOrder]
      rw [if_neg h1, if_neg (hdis a (List.mem_cons_self a pre2))]
      refine ih (a :: seen) id post (fun x hx => hall x (List.mem_cons_of_mem a hx)) hnd2
        (fun x hx hmem => ?_) hbad
      rcases List.mem_cons.mp hmem with rfl | hmem
      · exact hna hx
      · exact hdis x (List.mem_cons_of_mem a hx) hmem

theorem validateOrder_dup :
    ∀ (pre seen : List ℚ) (id : ℚ) (post : List ℚ),
      (∀ x ∈ pre, idInRange x) → pre.Nodup → (∀ x ∈ pre, x ∉ seen) →
      idInRange id → (id ∈ pre ∨ id ∈ seen) →
      validateOrder (pre ++ id :: post) seen = some ("Duplicate ID: " ++ toString id) := by
  intro pre
  induction pre with
  | nil =>
      intro seen id post _ _ _ hrange hmem
      have hseen : id ∈ seen := by
        rcases hmem with h | h
        · exact absurd h (List.not_mem_nil id)
        · exact h
      have h1 : ¬(id < 1 ∨ 1000000 < id) := by
        rintro (h | h)
        · exact absurd hrange.1 (not_le.mpr h)
        · exact absurd hrange.2 (not_le.mpr h)
      simp only [List.nil_append, validateOrder]
      rw [if_neg h1, if_pos hseen]
  | cons a pre2 ih =>
      intro seen id post hall hnd hdis hrange hmem
      have hra := hall a (List.mem_cons_self a pre2)
      have h1 : ¬(a < 1 ∨ 1000000 < a) := by
        rintro (h | h)
        · exact absurd hra.1 (not_le.mpr h)
        · exact absurd hra.2 (not_le.mpr h)
      obtain ⟨hna, hnd2⟩ := List.nodup_cons.mp hnd
      simp only [List.cons_append, validateOrder]
      rw [if_neg h1, if_neg (hdis a (List.mem_cons_self a pre2))]
      refine ih (a :: seen) id post (fun x hx => hall x (List.mem_cons_of_mem a hx)) hnd2
        (fun x hx hmem2 => ?_) hrange ?_
      · rcases List.mem_cons.mp hmem2 with rfl | hmem2
        · exact hna hx
        · exact hdis x (List.mem_cons_of_mem a hx) hmem2
      · rcases hmem with h | h
        · rcases List.mem_cons.mp h with rfl | h
          · exact Or.inr (List.mem_cons_self id seen)
          · exact Or.inl h
        · exact Or.inr (List.mem_cons_of_mem a h)

/-! ### Claim C1 -/

/-- C1 fails on the code: after `setOrder([5,3,9])`, `listItems(1,5,"")` serves
the custom order alone, three items with ids 5, 3, 9, and not the custom order
merged with the remaining universe (which would give ids 5, 3, 9, 1, 2). -/
theorem C1_counterexample :
    (updateOrder initialState [5, 3, 9]).1.isOk = true
    ∧ (listItems (updateOrder initialState [5, 3, 9]).2 "1" "5" "").1.items.map Item.id
        = [5, 3, 9]
    ∧ ([5, 3, 9] : List ℚ) ≠ [5, 3, 9, 1, 2] := by
  refine ⟨rfl, by decide, by decide⟩

/-- C1 amended: after `setOrder([5,3,9])` succeeds, `listItems(1,5,"")` (no
search term) returns exactly the items with ids 5, 3, 9 in that order with
total 3 — the effective id sequence is the custom order alone, not merged with
the rest of the universe. -/
theorem C1_custom_order_alone :
    (updateOrder initialState [5, 3, 9]).1.isOk = true
    ∧ (listItems (updateOrder initialState [5, 3, 9]).2 "1" "5" "").1.items.map Item.id
        = [5, 3, 9]
    ∧ (listItems (updateOrder initialState [5, 3, 9]).2 "1" "5" "").1.total = 3 := by
  refine ⟨rfl, by decide, by decide⟩

/-! ### Claim C2 -/

/-- C2 fails on the code: the update-order handler checks only
`typeof id === "number"` and the range; it does not check integrality, so
`setOrder([1.5])` succeeds even though 1.5 is not an integer. -/
theorem C2_counterexample :
    (updateOrder initialState [mkRat 3 2]).1.isOk = true
    ∧ (mkRat 3 2).den ≠ 1
    ∧ mkRat 3 2 = (3 : ℚ)/2 := by
  refine ⟨by decide, by decide, by norm_num⟩

/-- C2 amended: `setOrder(order)` succeeds exactly when every element is a
number in [1, 1000000] (integrality is not checked) with no repeats; it fails
on the first out-of-range or duplicate element with an error naming that id,
and every rejection leaves the state (custom order, selection, search cache)
unchanged. -/
theorem C2_setOrder_validation (s : CatalogState) (order : List ℚ) :
    ((updateOrder s order).1.isOk = true ↔ (∀ id ∈ order, idInRange id) ∧ order.Nodup)
    ∧ ((updateOrder s order).1.isOk = false → (updateOrder s order).2 = s)
    ∧ (∀ (pre : List ℚ) (id : ℚ) (post : List ℚ), order = pre ++ id :: post →
        (∀ x ∈ pre, idInRange x) → pre.Nodup → ¬ idInRange id →
        (updateOrder s order).1 = .badRequest ("Invalid ID: " ++ toString id))
    ∧ (∀ (pre : List ℚ) (id : ℚ) (post : List ℚ), order = pre ++ id :: post →
        (∀ x ∈ pre, idInRange x) → pre.Nodup → id ∈ pre →
        (updateOrder s order).1 = .badRequest ("Duplicate ID: " ++ toString id)) := by
  refine ⟨?_, ?_, ?_, ?_⟩
  · cases h : validateOrder order [] with
    | none =>
        have hv := (validateOrder_none_iff order []).mp h
        simp only [updateOrder, h, UpdateResult.isOk]
        exact iff_of_true trivial ⟨hv.1, hv.2.1⟩
    | some e =>
        simp only [updateOrder, h, UpdateResult.isOk]
        constructor
        · intro hfalse; cases hfalse
        · rintro ⟨hall, hnd⟩
          have : validateOrder order [] = none :=
            (validateOrder_none_iff order []).mpr ⟨hall, hnd, by simp⟩
          rw [this] at h; cases h
  · cases h : validateOrder order [] with
    | none =>
        intro hc
        simp only [updateOrder, h, UpdateResult.isOk] at hc
        cases hc
    | some e => intro _; simp only [updateOrder, h]
  · rintro pre id post rfl hall hnd hbad
    have hv := validateOrder_invalid pre [] id post hall hnd (by simp) hbad
    simp only [updateOrder, hv]
  · rintro pre id post rfl hall hnd hmem
    have hv := validateOrder_dup pre [] id post hall hnd (by simp)
      (hall id hmem) (Or.inl hmem)
    simp only [updateOrder, hv]

/-- Witness for C2: `[5, 0]` is rejected at its first out-of-range element 0,
with the state untouched. -/
theorem C2_setOrder_validation_witness :
    (updateOrder initialState [5, 0]).1 = .badRequest ("Invalid ID: " ++ toString (0 : ℚ))
    ∧ (updateOrder initialState [5, 0]).2 = initialState := by
  constructor
  · exact (C2_setOrder_validation initialState [5, 0]).2.2.1 [5] 0 [] rfl
      (by decide) (by decide) (by decide)
  · exact (C2_setOrder_validation initialState [5, 0]).2.1 (by decide)

/-! ### Claim C8 -/

/-- C8: the `limit` field of every items response is the number of items in
the returned slice, not the clamped requested limit; on an out-of-range page
it is 0, strictly below the clamped request (here 5). -/
theorem C8_limit_field (s : CatalogState) (p l q : String) :
    (listItems s p l q).1.limit = (listItems s p l q).1.items.length
    ∧ (listItems (updateOrder initialState [5, 3, 9]).2 "2" "5" "").1.limit = 0
    ∧ limitNumOf "5" = some 5 := by
  refine ⟨rfl, by decide, by decide⟩

/-! ### Claim C9 -/

/-- C9: `setOrder([])` succeeds and stores the empty custom order; afterwards
`getState` reports a custom order as present, while listing with no search
term ignores it: the response is identical to the one with no custom order at
all, serving the natural universe with total 1000000. -/
theorem C9_empty_order (s : CatalogState) (p l : String) :
    (updateOrder s []).1.isOk = true
    ∧ (updateOrder s []).2.customOrder = some []
    ∧ (getState (updateOrder s []).2).hasCustomOrder = true
    ∧ (listItems (updateOrder s []).2 p l "").1.total = 1000000
    ∧ (listItems (updateOrder s []).2 p l "").1
        = (listItems { (updateOrder s []).2 with customOrder := none } p l "").1
    ∧ (listItems (updateOrder s []).2 "1" "20" "").1.items.map Item.id = naturalIds.take 20 := by
  refine ⟨rfl, rfl, rfl, rfl, rfl, ?_⟩
  have h1 : pageNumOf "1" = some 1 := by decide
  have h2 : limitNumOf "20" = some 20 := by decide
  have h0 : normalizeTerm "" = "" := rfl
  have heff : effectiveSeq (updateOrder s []).2 "" = (naturalIds, 1000000, (updateOrder s []).2) :=
    effectiveSeq_empty_order _ rfl
  simp only [listItems, h0, h1, h2, heff, startIndexOf, endIndexOf]
  have hstart : jsSliceIndex naturalIds.length (some ((1 - 1) * 20)) = 0 := by
    show (if ((1 - 1) * 20 : ℤ) < 0 then ((naturalIds.length : ℤ) + (1 - 1) * 20).toNat
      else min ((1 - 1) * 20 : ℤ).toNat naturalIds.length) = 0
    rw [if_neg (by norm_num)]
    have h4 : ((1 - 1) * 20 : ℤ).toNat = 0 := by decide
    rw [h4]
    exact Nat.zero_min _
  have hend : jsSliceIndex naturalIds.length (some ((1 - 1) * 20 + 20)) = 20 := by
    show (if ((1 - 1) * 20 + 20 : ℤ) < 0 then ((naturalIds.length : ℤ) + ((1 - 1) * 20 + 20)).toNat
      else min ((1 - 1) * 20 + 20 : ℤ).toNat naturalIds.length) = 20
    rw [if_neg (by norm_num), naturalIds_length]
    have h4 : ((1 - 1) * 20 + 20 : ℤ).toNat = 20 := by decide
    rw [h4]
    omega
  have hslice : jsSlice naturalIds (some ((1 - 1) * 20)) (some ((1 - 1) * 20 + 20))
      = naturalIds.take 20 := by
    unfold jsSlice
    rw [hstart, hend]
    simp
  rw [hslice, List.map_map]
  have h3 : (Item.id ∘ generateItem (updateOrder s []).2) = @id ℚ := rfl
  rw [h3, List.map_id]

/-! ### Claim C6 -/

/-- C6 fails on the code: a non-numeric page string parses to NaN, which
`Math.max(1, ·)` does not clamp (the response reports page NaN, here `none`),
and the NaN slice indices coerce to 0, so the result is empty instead of a
clamped page of 1 to 100 items (a numeric request with the same limit
returns 5 items). -/
theorem C6_counterexample :
    (listItems initialState "abc" "5" "").1.page = none
    ∧ (listItems initialState "abc" "5" "").1.items = []
    ∧ (listItems initialState "1" "5" "").1.items.length = 5 := by
  refine ⟨rfl, rfl, ?_⟩
  have h1 : pageNumOf "1" = some 1 := by decide
  have h2 : limitNumOf "5" = some 5 := by decide
  have h0 : normalizeTerm "" = "" := rfl
  have heff : effectiveSeq initialState "" = (naturalIds, 1000000, initialState) :=
    effectiveSeq_natural _ rfl
  simp only [listItems, h0, h1, h2, heff, startIndexOf, endIndexOf]
  have hstart : jsSliceIndex naturalIds.length (some ((1 - 1) * 5)) = 0 := by
    show (if ((1 - 1) * 5 : ℤ) < 0 then ((naturalIds.length : ℤ) + (1 - 1) * 5).toNat
      else min ((1 - 1) * 5 : ℤ).toNat naturalIds.length) = 0
    rw [if_neg (by norm_num)]
    have h4 : ((1 - 1) * 5 : ℤ).toNat = 0 := by decide
    rw [h4]
    exact Nat.zero_min _
  have hend : jsSliceIndex naturalIds.length (some ((1 - 1) * 5 + 5)) = 5 := by
    show (if ((1 - 1) * 5 + 5 : ℤ) < 0 then ((naturalIds.length : ℤ) + ((1 - 1) * 5 + 5)).toNat
      else min ((1 - 1) * 5 + 5 : ℤ).toNat naturalIds.length) = 5
    rw [if_neg (by norm_num), naturalIds_length]
    have h4 : ((1 - 1) * 5 + 5 : ℤ).toNat = 5 := by decide
    rw [h4]
    omega
  unfold jsSlice
  rw [hstart, hend]
  simp [naturalIds_length]

/-- C6 amended: listItems never rejects a request: every request is answered.
A page string that parses yields an effective page `max 1 ⌊page⌋ ≥ 1` (which
is also the page reported in the response), and a limit string that parses
yields an effective limit clamped into [1, 100].  When either of page or
limit parses to NaN, however, no clamping occurs: the NaN start and end
indices coerce to 0 inside slice, and the request is answered with an empty
item list and `hasMore = false`. -/
theorem C6_lenient_paging (s : CatalogState) (p l q : String) :
    (∀ a : ℤ, jsParseInt p = some a →
      (listItems s p l q).1.page = some (max 1 a) ∧ 1 ≤ max 1 a)
    ∧ (∀ b : ℤ, jsParseInt l = some b →
      limitNumOf l = some (max 1 (min 100 b)) ∧ 1 ≤ max 1 (min 100 b)
        ∧ max 1 (min 100 b) ≤ 100)
    ∧ (jsParseInt p = none ∨ jsParseInt l = none →
      (listItems s p l q).1.items = [] ∧ (listItems s p l q).1.hasMore = false) := by
  refine ⟨?_, ?_, ?_⟩
  · intro a ha
    refine ⟨?_, le_max_left 1 a⟩
    show (jsParseInt p).map (fun n => max 1 n) = some (max 1 a)
    rw [ha]
    rfl
  · intro b hb
    refine ⟨?_, le_max_left _ _, max_le (by norm_num) (min_le_left _ _)⟩
    show (jsParseInt l).map (fun n => max 1 (min 100 n)) = some (max 1 (min 100 b))
    rw [hb]
    rfl
  · intro h
    have hnone : pageNumOf p = none ∨ limitNumOf l = none := by
      rcases h with h | h
      · refine Or.inl ?_
        show (jsParseInt p).map (fun n => max 1 n) = none
        rw [h]
        rfl
      · refine Or.inr ?_
        show (jsParseInt l).map (fun n => max 1 (min 100 n)) = none
        rw [h]
        rfl
    have hs : startIndexOf (pageNumOf p) (limitNumOf l) = none := by
      rcases hnone with h2 | h2
      · rw [h2]; exact startIndexOf_none_left _
      · rw [h2]; exact startIndexOf_none_right _
    have he : endIndexOf (pageNumOf p) (limitNumOf l) = none := by
      rcases hnone with h2 | h2
      · rw [h2]; exact endIndexOf_none_left _
      · rw [h2]; exact endIndexOf_none_right _
    constructor
    · show (jsSlice (effectiveSeq s (normalizeTerm q)).1
          (startIndexOf (pageNumOf p) (limitNumOf l))
          (endIndexOf (pageNumOf p) (limitNumOf l))).map (generateItem s) = []
      rw [hs, he, jsSlice_none_none]
      rfl
    · show jsHasMore (endIndexOf (pageNumOf p) (limitNumOf l))
          (effectiveSeq s (normalizeTerm q)).2.1 = false
      rw [he]
      rfl

/-- Witness for C6: a numeric request is clamped as stated, and a
non-numeric page empties the result. -/
theorem C6_lenient_paging_witness :
    (listItems initialState "2" "300" "").1.page = some (max 1 2)
    ∧ limitNumOf "300" = some (max 1 (min 100 300))
    ∧ (listItems initialState "abc" "5" "").1.items = [] :=
  ⟨((C6_lenient_paging initialState "2" "300" "").1 2 (by decide)).1,
   ((C6_lenient_paging initialState "2" "300" "").2.1 300 (by decide)).1,
   ((C6_lenient_paging initialState "abc" "5" "").2.2 (Or.inl (by decide))).1⟩

/-! ### The search loop computes the capped ascending match list -/

theorem searchLoop_eq (term : String) :
    ∀ (fuel start : ℕ) (acc : List ℕ), acc.length < 1000 →
      searchLoop term fuel start acc =
        acc ++ ((List.range' start fuel).filter (fun n => matchesTerm n term)).take
          (1000 - acc.length) := by
  intro fuel
  induction fuel with
  | zero => intro start acc _; simp [searchLoop]
  | succ f ih =>
      intro start acc h
      simp only [searchLoop]
      rw [List.range'_succ]
      by_cases hm : matchesTerm start term
      · rw [if_pos hm,
          @List.filter_cons_of_pos ℕ (fun n => matchesTerm n term) start
            (List.range' (start + 1) f) hm]
        have hlen : (acc ++ [start]).length = acc.length + 1 := by simp
        by_cases hfull : 1000 ≤ (acc ++ [start]).length
        · rw [if_pos hfull]
          rw [hlen] at hfull
          have h999 : acc.length = 999 := by omega
          have htake : 1000 - acc.length = 1 := by omega
          rw [htake, List.take_succ_cons, List.take_zero]
        · rw [if_neg hfull]
          rw [hlen] at hfull
          have hlt : (acc ++ [start]).length < 1000 := by rw [hlen]; omega
          rw [ih (start + 1) (acc ++ [start]) hlt]
          have hk : 1000 - acc.length = (1000 - (acc ++ [start]).length) + 1 := by
            rw [hlen]; omega
          rw [hk, List.take_succ_cons]
          simp
      · have hm2 : ¬(matchesTerm start term = true) := by simpa using hm
        rw [if_neg hm2,
          @List.filter_cons_of_neg ℕ (fun n => matchesTerm n term) start
            (List.range' (start + 1) f) hm2, if_neg (by omega)]
        exact ih (start + 1) acc h

theorem searchCompute_eq (term : String) :
    searchCompute term = (specMatchList term).take 1000 := by
  have h := searchLoop_eq term 1000000 1 [] (by norm_num)
  simpa [searchCompute, specMatchList] using h

theorem pairwise_lt_range' : ∀ (n s : ℕ), List.Pairwise (· < ·) (List.range' s n)
  | 0, _ => by simp
  | n + 1, s => by
      rw [List.range'_succ]
      refine List.Pairwise.cons ?_ (pairwise_lt_range' n (s + 1))
      intro b hb
      have hmem := List.mem_range'_1.mp hb
      omega

theorem searchCompute_sorted (term : String) :
    List.Pairwise (· < ·) (searchCompute term) := by
  rw [searchCompute_eq]
  exact List.Pairwise.sublist (List.take_sublist _ _)
    ((pairwise_lt_range' 1000000 1).filter _)

theorem searchCompute_mem (term : String) (id : ℕ) (h : id ∈ searchCompute term) :
    matchesTerm id term = true ∧ 1 ≤ id ∧ id ≤ 1000000 := by
  rw [searchCompute_eq] at h
  have h2 : id ∈ specMatchList term := List.mem_of_mem_take h
  unfold specMatchList at h2
  have h3 := List.mem_filter.mp h2
  have h4 := List.mem_range'_1.mp h3.1
  exact ⟨h3.2, by omega, by omega⟩

/-! ### Claim C4 -/

/-- C4: for every term, an id of the universe matches exactly when its decimal
numeral contains the term; the scan runs ascending from 1 and stops at 1000
matches, so the computed list is the first `min 1000 (number of matches)`
matching ids in ascending order; and on a cache miss the reported total is the
length of that list. -/
theorem C4_search_scan (s : CatalogState) (p l q term : String) :
    searchCompute term = (specMatchList term).take 1000
    ∧ List.Pairwise (· < ·) (searchCompute term)
    ∧ (∀ id ∈ searchCompute term, matchesTerm id term = true ∧ 1 ≤ id ∧ id ≤ 1000000)
    ∧ (normalizeTerm q ≠ "" → cacheGet s.searchCache (normalizeTerm q) = none →
        (listItems s p l q).1.total = (searchCompute (normalizeTerm q)).length) := by
  refine ⟨searchCompute_eq term, searchCompute_sorted term,
    fun id h => searchCompute_mem term id h, ?_⟩
  intro hq hc
  show (effectiveSeq s (normalizeTerm q)).2.1 = _
  unfold effectiveSeq
  rw [if_pos hq, hc]
  show ((searchCompute (normalizeTerm q)).map (fun n : ℕ => (n : ℚ))).length = _
  rw [List.length_map]

/-- Witness for C4: a fresh search reports the scan length as its total. -/
theorem C4_search_scan_witness :
    (listItems initialState "1" "20" "123456789").1.total
      = (searchCompute (normalizeTerm "123456789")).length :=
  (C4_search_scan initialState "1" "20" "123456789" "").2.2.2 (by decide) rfl

/-! ### Cache behaviour lemmas -/

/-- On a cache hit the effective sequence is the stored entry, verbatim, and
the state is unchanged. -/
theorem effectiveSeq_hit (s : CatalogState) (term : String) (e : SearchEntry)
    (hterm : term ≠ "") (h : cacheGet s.searchCache term = some e) :
    effectiveSeq s term = (e.ids, e.total, s) := by
  unfold effectiveSeq
  rw [if_pos hterm, h]

/-- On a cache miss the scan is computed and stored under the term. -/
theorem effectiveSeq_miss (s : CatalogState) (term : String)
    (hterm : term ≠ "") (h : cacheGet s.searchCache term = none) :
    effectiveSeq s term =
      ((searchCompute term).map (fun n : ℕ => (n : ℚ)),
        ((searchCompute term).map (fun n : ℕ => (n : ℚ))).length,
        CatalogState.mk s.customOrder s.selectedItems
          (cacheSet s.searchCache term
            (SearchEntry.mk ((searchCompute term).map (fun n : ℕ => (n : ℚ)))
              (((searchCompute term).map (fun n : ℕ => (n : ℚ))).length)))) := by
  unfold effectiveSeq
  rw [if_pos hterm, h]

theorem cacheGet_cacheSet_self (c : List (String × SearchEntry)) (k : String)
    (v : SearchEntry) : cacheGet (cacheSet c k v) k = some v := by
  induction c with
  | nil => simp [cacheSet, cacheGet]
  | cons kv rest ih =>
      obtain ⟨k', v'⟩ := kv
      by_cases h : k' = k
      · subst h; simp [cacheSet, cacheGet]
      · simp [cacheSet, cacheGet, h, ih]

/-! ### Claim C3 -/

/-- C3: a search whose normalized term is cached returns the stored entry
verbatim (its total and its ids, sliced) and leaves the state unchanged; a
successful setOrder empties the whole cache, so no term has an entry
afterwards; and a search against an empty cache recomputes the scan and
stores it keyed by the normalized term. -/
theorem C3_search_cache (s : CatalogState) (p l q : String) (e : SearchEntry)
    (ord : List ℚ) :
    (normalizeTerm q ≠ "" → cacheGet s.searchCache (normalizeTerm q) = some e →
      (listItems s p l q).2 = s
      ∧ (listItems s p l q).1.total = e.total
      ∧ (listItems s p l q).1.items.map Item.id
          = jsSlice e.ids (startIndexOf (pageNumOf p) (limitNumOf l))
              (endIndexOf (pageNumOf p) (limitNumOf l)))
    ∧ ((updateOrder s ord).1.isOk = true →
        (updateOrder s ord).2.searchCache = []
        ∧ ∀ k : String, cacheGet (updateOrder s ord).2.searchCache k = none)
    ∧ (s.searchCache = [] → normalizeTerm q ≠ "" →
        (listItems s p l q).1.total = (searchCompute (normalizeTerm q)).length
        ∧ cacheGet (listItems s p l q).2.searchCache (normalizeTerm q)
            = some (SearchEntry.mk
                ((searchCompute (normalizeTerm q)).map (fun n : ℕ => (n : ℚ)))
                (((searchCompute (normalizeTerm q)).map (fun n : ℕ => (n : ℚ))).length))) := by
  refine ⟨?_, ?_, ?_⟩
  · intro hq he
    refine ⟨?_, ?_, ?_⟩
    · show (effectiveSeq s (normalizeTerm q)).2.2 = s
      rw [effectiveSeq_hit s _ e hq he]
    · show (effectiveSeq s (normalizeTerm q)).2.1 = e.total
      rw [effectiveSeq_hit s _ e hq he]
    · show ((jsSlice (effectiveSeq s (normalizeTerm q)).1
          (startIndexOf (pageNumOf p) (limitNumOf l))
          (endIndexOf (pageNumOf p) (limitNumOf l))).map (generateItem s)).map Item.id = _
      rw [List.map_map]
      have h3 : (Item.id ∘ generateItem s) = @id ℚ := rfl
      rw [h3, List.map_id, effectiveSeq_hit s _ e hq he]
  · intro hok
    cases h : validateOrder ord [] with
    | some e2 =>
        simp only [updateOrder, h, UpdateResult.isOk] at hok
        cases hok
    | none =>
        constructor
        · simp only [updateOrder, h]
        · intro k
          simp only [updateOrder, h]
          rfl
  · intro hc hq
    have hget : cacheGet s.searchCache (normalizeTerm q) = none := by
      rw [hc]; rfl
    have hms := effectiveSeq_miss s (normalizeTerm q) hq hget
    constructor
    · have h21 : (listItems s p l q).1.total = (effectiveSeq s (normalizeTerm q)).2.1 := rfl
      rw [h21, hms, List.length_map]
    · have h22 : (listItems s p l q).2 = (effectiveSeq s (normalizeTerm q)).2.2 := rfl
      rw [h22, hms]
      exact cacheGet_cacheSet_self s.searchCache (normalizeTerm q) _

/-- Witness for C3: a cached term is served verbatim with the state untouched,
and a successful setOrder clears the cache. -/
theorem C3_search_cache_witness :
    (listItems ⟨none, [], [("5", SearchEntry.mk [5] 1)]⟩ "1" "20" "5").2
        = ⟨none, [], [("5", SearchEntry.mk [5] 1)]⟩
    ∧ (listItems ⟨none, [], [("5", SearchEntry.mk [5] 1)]⟩ "1" "20" "5").1.total = 1
    ∧ (updateOrder ⟨none, [], [("5", SearchEntry.mk [5] 1)]⟩ [1]).2.searchCache = [] := by
  have h := C3_search_cache (⟨none, [], [("5", SearchEntry.mk [5] 1)]⟩ : CatalogState)
    "1" "20" "5" (SearchEntry.mk [5] 1) [1]
  exact ⟨(h.1 (by decide) rfl).1, (h.1 (by decide) rfl).2.1, (h.2.1 (by decide)).1⟩

/-! ### Claim C7 -/

theorem pairwise_cast_lt {l : List ℕ} (h : List.Pairwise (· < ·) l) :
    List.Pairwise (· < ·) (l.map (fun n : ℕ => (n : ℚ))) := by
  refine List.Pairwise.map _ ?_ h
  intro a b hab
  exact_mod_cast hab

theorem jsSlice_sublist (l : List ℚ) (a b : Option ℤ) : (jsSlice l a b).Sublist l := by
  unfold jsSlice
  exact (List.take_sublist _ _).trans (List.drop_sublist _ _)

/-- C7: with a non-empty normalized search term, the items response does not
depend on the custom order: two states that agree on selection and cache (and
so may differ arbitrarily in custom order) produce identical responses; and
over any well-formed cache the returned ids are strictly ascending. -/
theorem C7_search_ignores_order (s1 s2 : CatalogState) (p l q : String)
    (hsel : s1.selectedItems = s2.selectedItems)
    (hcache : s1.searchCache = s2.searchCache)
    (hq : normalizeTerm q ≠ "") :
    (listItems s1 p l q).1 = (listItems s2 p l q).1
    ∧ (CacheWF s1 →
        List.Pairwise (· < ·) ((listItems s1 p l q).1.items.map Item.id)) := by
  have heff : (effectiveSeq s1 (normalizeTerm q)).1 = (effectiveSeq s2 (normalizeTerm q)).1
      ∧ (effectiveSeq s1 (normalizeTerm q)).2.1 = (effectiveSeq s2 (normalizeTerm q)).2.1 := by
    cases hcg : cacheGet s2.searchCache (normalizeTerm q) with
    | some e =>
        rw [effectiveSeq_hit s1 _ e hq (by rw [hcache]; exact hcg),
          effectiveSeq_hit s2 _ e hq hcg]
        exact ⟨rfl, rfl⟩
    | none =>
        rw [effectiveSeq_miss s1 _ hq (by rw [hcache]; exact hcg),
          effectiveSeq_miss s2 _ hq hcg]
        exact ⟨rfl, rfl⟩
  have hgen : generateItem s1 = generateItem s2 := by
    funext id
    unfold generateItem
    rw [hsel]
  constructor
  · simp only [listItems]
    rw [heff.1, heff.2, hgen]
  · intro hwf
    have hsorted : List.Pairwise (· < ·) (effectiveSeq s1 (normalizeTerm q)).1 := by
      cases hcg : cacheGet s1.searchCache (normalizeTerm q) with
      | some e =>
          rw [effectiveSeq_hit s1 _ e hq hcg, hwf _ e hcg]
          exact pairwise_cast_lt (searchCompute_sorted _)
      | none =>
          rw [effectiveSeq_miss s1 _ hq hcg]
          exact pairwise_cast_lt (searchCompute_sorted _)
    show List.Pairwise (· < ·)
      (((jsSlice (effectiveSeq s1 (normalizeTerm q)).1
        (startIndexOf (pageNumOf p) (limitNumOf l))
        (endIndexOf (pageNumOf p) (limitNumOf l))).map (generateItem s1)).map Item.id)
    rw [List.map_map]
    have h3 : (Item.id ∘ generateItem s1) = @id ℚ := rfl
    rw [h3, List.map_id]
    exact List.Pairwise.sublist (jsSlice_sublist _ _ _) hsorted

/-- Witness for C7: the same search against a state with and without a custom
order yields the same response, with ascending ids. -/
theorem C7_search_ignores_order_witness :
    (listItems initialState "1" "20" "77").1
        = (listItems ⟨some [7], [], []⟩ "1" "20" "77").1
    ∧ List.Pairwise (· < ·) ((listItems initialState "1" "20" "77").1.items.map Item.id) :=
  ⟨(C7_search_ignores_order initialState ⟨some [7], [], []⟩ "1" "20" "77" rfl rfl
      (by decide)).1,
   (C7_search_ignores_order initialState ⟨some [7], [], []⟩ "1" "20" "77" rfl rfl
      (by decide)).2 (by intro k e h; simp [cacheGet] at h)⟩

/-! ### Order resolver lemmas -/

theorem orderPass_fst :
    ∀ (ord : List ℚ) (rem : Finset ℚ), ord.Nodup →
      (orderPass ord rem).1 = ord.filter (fun id => decide (id ∈ rem)) := by
  intro ord
  induction ord with
  | nil => intro rem _; rfl
  | cons a rest ih =>
      intro rem hnd
      obtain ⟨hna, hnd2⟩ := List.nodup_cons.mp hnd
      by_cases h : a ∈ rem
      · simp only [orderPass, if_pos h, List.filter_cons]
        rw [if_pos (show decide (a ∈ rem) = true by simp [h]), ih (rem.erase a) hnd2]
        congr 1
        apply List.filter_congr
        intro x hx
        have hxa : x ≠ a := fun hc => hna (hc ▸ hx)
        simp [Finset.mem_erase, hxa]
      · simp only [orderPass, if_neg h, List.filter_cons]
        rw [if_neg (show ¬(decide (a ∈ rem) = true) by simp [h])]
        exact ih rem hnd2

theorem orderPass_snd :
    ∀ (ord : List ℚ) (rem : Finset ℚ),
      (orderPass ord rem).2 = rem \ ord.toFinset := by
  intro ord
  induction ord with
  | nil => intro rem; simp [orderPass]
  | cons a rest ih =>
      intro rem
      by_cases h : a ∈ rem
      · simp only [orderPass, if_pos h]
        rw [ih (rem.erase a)]
        ext x
        simp only [Finset.mem_sdiff, Finset.mem_erase, List.toFinset_cons, Finset.mem_insert]
        tauto
      · simp only [orderPass, if_neg h]
        rw [ih rem]
        ext x
        simp only [Finset.mem_sdiff, List.toFinset_cons, Finset.mem_insert]
        constructor
        · rintro ⟨h1, h2⟩
          refine ⟨h1, ?_⟩
          rintro (rfl | hx)
          · exact h h1
          · exact h2 hx
        · rintro ⟨h1, h2⟩
          exact ⟨h1, fun hx => h2 (Or.inr hx)⟩

/-- The two-pass merge in closed form: custom-order ids that occur among the
candidates first, then the candidates not named by the custom order, in their
original relative order. -/
theorem applyCustomOrder_some (ord ids : List ℚ) (hord : ord.Nodup) :
    applyCustomOrder (some ord) ids =
      ord.filter (fun id => decide (id ∈ ids))
        ++ ids.filter (fun id => decide (id ∉ ord)) := by
  show (orderPass ord ids.toFinset).1
      ++ ids.filter (fun id => decide (id ∈ (orderPass ord ids.toFinset).2)) = _
  rw [orderPass_fst ord ids.toFinset hord, orderPass_snd ord ids.toFinset]
  congr 1
  · apply List.filter_congr
    intro x _
    simp [List.mem_toFinset]
  · apply List.filter_congr
    intro x hx
    simp [Finset.mem_sdiff, List.mem_toFinset, hx]

theorem applyCustomOrder_perm (ord ids : List ℚ) (hids : ids.Nodup) (hord : ord.Nodup) :
    (applyCustomOrder (some ord) ids).Perm ids := by
  rw [applyCustomOrder_some ord ids hord]
  have h1 : (ord.filter (fun id => decide (id ∈ ids))).Perm
      (ids.filter (fun id => decide (id ∈ ord))) := by
    apply List.perm_of_nodup_nodup_toFinset_eq (hord.filter _) (hids.filter _)
    ext x
    simp only [List.mem_toFinset, List.mem_filter, decide_eq_true_eq]
    tauto
  have h2 : (ids.filter (fun id => decide (id ∈ ord)) ++
      ids.filter (fun id => decide (id ∉ ord))).Perm ids := by
    have h3 := List.filter_append_perm (fun id => decide (id ∈ ord)) ids
    simpa [decide_not] using h3
  exact (h1.append_right _).trans h2

/-! ### Claim C5 -/

/-- C5: the order resolver returns the candidates unchanged when no custom
order is set; with a custom order it emits the custom-order ids occurring
among the candidates first, in custom-order order, then the remaining
candidates in their original relative order — a permutation of the
candidates. -/
theorem C5_resolve_order (ids ord : List ℚ) (hids : ids.Nodup) (hord : ord.Nodup) :
    applyCustomOrder none ids = ids
    ∧ applyCustomOrder (some ord) ids =
        ord.filter (fun id => decide (id ∈ ids))
          ++ ids.filter (fun id => decide (id ∉ ord))
    ∧ (applyCustomOrder (some ord) ids).Perm ids :=
  ⟨rfl, applyCustomOrder_some ord ids hord, applyCustomOrder_perm ord ids hids hord⟩

/-- Witness for C5 at a concrete candidate list and custom order. -/
theorem C5_resolve_order_witness :
    applyCustomOrder none ([1, 2, 3] : List ℚ) = [1, 2, 3]
    ∧ (applyCustomOrder (some [9, 2]) [1, 2, 3]).Perm [1, 2, 3] :=
  ⟨(C5_resolve_order [1, 2, 3] [9, 2] (by decide) (by decide)).1,
   (C5_resolve_order [1, 2, 3] [9, 2] (by decide) (by decide)).2.2⟩

/-! ### Lemmas about the comparator of the earlier revision -/

theorem jsIndexOf_of_not_mem : ∀ (l : List ℚ) (a : ℚ), a ∉ l → jsIndexOf l a = -1 := by
  intro l
  induction l with
  | nil => intro a _; rfl
  | cons b bs ih =>
      intro a ha
      have hba : ¬(b = a) := fun hc => ha (hc ▸ List.mem_cons_self b bs)
      simp only [jsIndexOf, if_neg hba]
      rw [ih a (fun hc => ha (List.mem_cons_of_mem b hc))]
      simp

theorem jsIndexOf_nonneg : ∀ (l : List ℚ) (a : ℚ), a ∈ l → 0 ≤ jsIndexOf l a := by
  intro l
  induction l with
  | nil => intro a ha; exact absurd ha (List.not_mem_nil a)
  | cons b bs ih =>
      intro a ha
      by_cases hba : b = a
      · simp [jsIndexOf, hba]
      · simp only [jsIndexOf, if_neg hba]
        have hmem : a ∈ bs := by
          rcases List.mem_cons.mp ha with h | h
          · exact absurd h.symm hba
          · exact h
        have h0 := ih a hmem
        by_cases hneg : jsIndexOf bs a = -1
        · exfalso; rw [hneg] at h0; omega
        · rw [if_neg hneg]; omega

theorem jsIndexOf_lt_length : ∀ (l : List ℚ) (a : ℚ), a ∈ l →
    jsIndexOf l a < (l.length : ℤ) := by
  intro l
  induction l with
  | nil => intro a ha; exact absurd ha (List.not_mem_nil a)
  | cons b bs ih =>
      intro a ha
      simp only [List.length_cons]
      by_cases hba : b = a
      · simp only [jsIndexOf, if_pos hba]
        push_cast
        have := bs.length.zero_le
        omega
      · simp only [jsIndexOf, if_neg hba]
        have hmem : a ∈ bs := by
          rcases List.mem_cons.mp ha with h | h
          · exact absurd h.symm hba
          · exact h
        have h0 := jsIndexOf_nonneg bs a hmem
        have h1 := ih a hmem
        rw [if_neg (by omega)]
        push_cast
        omega

theorem jsIndexOf_cons_self (l : List ℚ) (a : ℚ) : jsIndexOf (a :: l) a = 0 := by
  simp [jsIndexOf]

theorem jsIndexOf_append_left : ∀ (l1 l2 : List ℚ) (a : ℚ), a ∈ l1 →
    jsIndexOf (l1 ++ l2) a = jsIndexOf l1 a := by
  intro l1
  induction l1 with
  | nil => intro l2 a ha; exact absurd ha (List.not_mem_nil a)
  | cons b bs ih =>
      intro l2 a ha
      by_cases hba : b = a
      · simp [jsIndexOf, hba]
      · have hmem : a ∈ bs := by
          rcases List.mem_cons.mp ha with h | h
          · exact absurd h.symm hba
          · exact h
        simp only [List.cons_append, jsIndexOf, if_neg hba, List.append_eq]
        rw [ih l2 a hmem]

theorem jsIndexOf_append_right : ∀ (l1 l2 : List ℚ) (a : ℚ), a ∉ l1 → a ∈ l2 →
    jsIndexOf (l1 ++ l2) a = l1.length + jsIndexOf l2 a := by
  intro l1
  induction l1 with
  | nil => intro l2 a _ _; simp
  | cons b bs ih =>
      intro l2 a ha hmem
      have hba : ¬(b = a) := fun hc => ha (hc ▸ List.mem_cons_self b bs)
      have hnb : a ∉ bs := fun hc => ha (List.mem_cons_of_mem b hc)
      simp only [List.cons_append, jsIndexOf, if_neg hba, List.length_cons, List.append_eq]
      rw [ih l2 a hnb hmem]
      have h0 : 0 ≤ jsIndexOf l2 a := jsIndexOf_nonneg l2 a hmem
      have hne : ¬((bs.length : ℤ) + jsIndexOf l2 a = -1) := by omega
      rw [if_neg hne]
      push_cast
      ring

theorem oldSortLe_none_none {ord : List ℚ} {a b : ℚ} (ha : a ∉ ord) (hb : b ∉ ord) :
    oldSortLe ord a b := by
  have h1 := jsIndexOf_of_not_mem ord a ha
  have h2 := jsIndexOf_of_not_mem ord b hb
  unfold oldSortLe oldCompare
  split_ifs <;> omega

theorem oldSortLe_mem_not_mem {ord : List ℚ} {a b : ℚ} (ha : a ∈ ord) (hb : b ∉ ord) :
    oldSortLe ord a b := by
  have h1 := jsIndexOf_nonneg ord a ha
  have h2 := jsIndexOf_of_not_mem ord b hb
  unfold oldSortLe oldCompare
  split_ifs <;> omega

theorem not_oldSortLe_of_not_mem_mem {ord : List ℚ} {a b : ℚ} (ha : a ∉ ord) (hb : b ∈ ord) :
    ¬ oldSortLe ord a b := by
  have h1 := jsIndexOf_of_not_mem ord a ha
  have h2 := jsIndexOf_nonneg ord b hb
  unfold oldSortLe oldCompare
  split_ifs <;> omega

theorem oldSortLe_iff_index_le {ord : List ℚ} {a b : ℚ} (ha : a ∈ ord) (hb : b ∈ ord) :
    (oldSortLe ord a b ↔ jsIndexOf ord a ≤ jsIndexOf ord b) := by
  have h1 := jsIndexOf_nonneg ord a ha
  have h2 := jsIndexOf_nonneg ord b hb
  unfold oldSortLe oldCompare
  split_ifs <;> omega

/-! ### Stable insertion lemmas -/

theorem orderedInsert_append_skip (le : ℚ → ℚ → Prop) [DecidableRel le] (a : ℚ) :
    ∀ (A C : List ℚ), (∀ b ∈ A, ¬ le a b) →
      List.orderedInsert le a (A ++ C) = A ++ List.orderedInsert le a C := by
  intro A
  induction A with
  | nil => intro C _; rfl
  | cons b A2 ih =>
      intro C hA
      have hb : ¬ le a b := hA b (List.mem_cons_self b A2)
      simp only [List.cons_append, List.orderedInsert, if_neg hb, List.append_eq]
      rw [ih C (fun x hx => hA x (List.mem_cons_of_mem b hx))]

theorem orderedInsert_front (le : ℚ → ℚ → Prop) [DecidableRel le] (a : ℚ) :
    ∀ (C : List ℚ), (∀ b ∈ C, le a b) → List.orderedInsert le a C = a :: C := by
  intro C hC
  cases C with
  | nil => rfl
  | cons b C2 =>
      simp only [List.orderedInsert, if_pos (hC b (List.mem_cons_self b C2))]

/-- The stable comparator sort of the earlier revision computes exactly the
two-pass merge, in closed form. -/
theorem oldSort_eq (ord : List ℚ) (hord : ord.Nodup) :
    ∀ ids : List ℚ, ids.Nodup →
      oldSort ord ids =
        ord.filter (fun id => decide (id ∈ ids))
          ++ ids.filter (fun id => decide (id ∉ ord)) := by
  intro ids
  induction ids with
  | nil =>
      intro _
      simp [oldSort, List.insertionSort]
  | cons a rest ih =>
      intro hnd
      obtain ⟨hna, hnd2⟩ := List.nodup_cons.mp hnd
      have hIH := ih hnd2
      unfold oldSort at hIH
      show List.orderedInsert (oldSortLe ord) a (List.insertionSort (oldSortLe ord) rest) = _
      rw [hIH]
      by_cases hmem : a ∈ ord
      · obtain ⟨ord1, ord2, rfl⟩ := List.append_of_mem hmem
        rw [List.nodup_append] at hord
        obtain ⟨hn1, hn2c, hdisj⟩ := hord
        obtain ⟨hna2, hn2⟩ := List.nodup_cons.mp hn2c
        have hna1 : a ∉ ord1 := fun hc => hdisj hc (List.mem_cons_self a ord2)
        have hidx_a : jsIndexOf (ord1 ++ a :: ord2) a = (ord1.length : ℤ) := by
          rw [jsIndexOf_append_right ord1 (a :: ord2) a hna1 (List.mem_cons_self a ord2),
            jsIndexOf_cons_self]
          ring
        have hidx_b1 : ∀ b ∈ ord1, jsIndexOf (ord1 ++ a :: ord2) b < (ord1.length : ℤ) := by
          intro b hb
          rw [jsIndexOf_append_left ord1 (a :: ord2) b hb]
          exact jsIndexOf_lt_length ord1 b hb
        have hidx_b2 : ∀ b ∈ ord2, (ord1.length : ℤ) < jsIndexOf (ord1 ++ a :: ord2) b := by
          intro b hb
          have hbne : ¬(a = b) := fun hc => hna2 (hc ▸ hb)
          have hb1 : b ∉ ord1 := fun hc => hdisj hc (List.mem_cons_of_mem a hb)
          rw [jsIndexOf_append_right ord1 (a :: ord2) b hb1 (List.mem_cons_of_mem a hb)]
          have h0 := jsIndexOf_nonneg ord2 b hb
          simp only [jsIndexOf, if_neg hbne]
          rw [if_neg (by omega)]
          omega
        have hsplitA : (ord1 ++ a :: ord2).filter (fun id => decide (id ∈ rest))
            = ord1.filter (fun id => decide (id ∈ rest))
              ++ ord2.filter (fun id => decide (id ∈ rest)) := by
          rw [List.filter_append]
          congr 1
          simp [List.filter_cons, hna]
        rw [hsplitA, List.append_assoc]
        rw [orderedInsert_append_skip (oldSortLe (ord1 ++ a :: ord2)) a _ _ ?skipA]
        case skipA =>
          intro b hb
          have hbmem : b ∈ ord1 := (List.mem_filter.mp hb).1
          have hb_in : b ∈ ord1 ++ a :: ord2 := List.mem_append_left _ hbmem
          intro hle
          rw [oldSortLe_iff_index_le hmem hb_in, hidx_a] at hle
          exact absurd hle (not_le.mpr (hidx_b1 b hbmem))
        rw [orderedInsert_front (oldSortLe (ord1 ++ a :: ord2)) a _ ?frontB]
        case frontB =>
          intro b hb
          rcases List.mem_append.mp hb with hb2 | hbB
          · have hbmem : b ∈ ord2 := (List.mem_filter.mp hb2).1
            have hb_in : b ∈ ord1 ++ a :: ord2 :=
              List.mem_append_right _ (List.mem_cons_of_mem a hbmem)
            rw [oldSortLe_iff_index_le hmem hb_in, hidx_a]
            exact le_of_lt (hidx_b2 b hbmem)
          · have hbn : b ∉ ord1 ++ a :: ord2 := by
              have h4 := (List.mem_filter.mp hbB).2
              simpa using h4
            exact oldSortLe_mem_not_mem hmem hbn
        have hr1 : (ord1 ++ a :: ord2).filter (fun id => decide (id ∈ a :: rest))
            = ord1.filter (fun id => decide (id ∈ rest))
              ++ a :: ord2.filter (fun id => decide (id ∈ rest)) := by
          rw [List.filter_append]
          congr 1
          · apply List.filter_congr
            intro x hx
            have hxa : x ≠ a := fun hc => hna1 (hc ▸ hx)
            simp [List.mem_cons, hxa]
          · rw [List.filter_cons, if_pos (show decide (a ∈ a :: rest) = true by simp)]
            congr 1
            apply List.filter_congr
            intro x hx
            have hxa : x ≠ a := fun hc => hna2 (hc ▸ hx)
            simp [List.mem_cons, hxa]
        have hr2 : (a :: rest).filter (fun id => decide (id ∉ ord1 ++ a :: ord2))
            = rest.filter (fun id => decide (id ∉ ord1 ++ a :: ord2)) := by
          rw [List.filter_cons]
          simp [hmem]
        rw [hr1, hr2, List.append_assoc]
        simp [List.cons_append]
      · rw [orderedInsert_append_skip (oldSortLe ord) a _ _ ?skipAll]
        case skipAll =>
          intro b hb
          have hbord : b ∈ ord := (List.mem_filter.mp hb).1
          exact not_oldSortLe_of_not_mem_mem hmem hbord
        rw [orderedInsert_front (oldSortLe ord) a _ ?frontAll]
        case frontAll =>
          intro b hb
          have hbnord : b ∉ ord := by
            have h4 := (List.mem_filter.mp hb).2
            simpa using h4
          exact oldSortLe_none_none hmem hbnord
        have hfirst : ord.filter (fun id => decide (id ∈ a :: rest))
            = ord.filter (fun id => decide (id ∈ rest)) := by
          apply List.filter_congr
          intro x hx
          have hxa : x ≠ a := fun hc => hmem (hc ▸ hx)
          simp [List.mem_cons, hxa]
        have hsecond : (a :: rest).filter (fun id => decide (id ∉ ord))
            = a :: rest.filter (fun id => decide (id ∉ ord)) := by
          rw [List.filter_cons]
          simp [hmem]
        rw [hfirst, hsecond]

/-! ### Claim C10 -/

/-- C10: on distinct candidates and a distinct custom order, the stable
comparator sort of the earlier server revision and the two-pass merge of the
current one produce the same ordered sequence. -/
theorem C10_old_new_equivalence (ids ord : List ℚ) (hids : ids.Nodup) (hord : ord.Nodup) :
    oldSort ord ids = applyCustomOrder (some ord) ids := by
  rw [oldSort_eq ord hord ids hids, applyCustomOrder_some ord ids hord]

/-- Witness for C10 at a concrete candidate list and custom order. -/
theorem C10_old_new_equivalence_witness :
    oldSort [5, 3, 9] [1, 2, 3, 4, 5] = applyCustomOrder (some [5, 3, 9]) [1, 2, 3, 4, 5] :=
  C10_old_new_equivalence [1, 2, 3, 4, 5] [5, 3, 9] (by decide) (by decide)

end Catalog
